import Mathlib

/-!
Verification development for the Parquet column reader in
`oamap/source/parquet.py` (class `ParquetFile`).

The Python source is shallowly embedded below.  Byte buffers are
`List Nat` (each entry one byte, < 256 where it matters), Python
exceptions are the `PyError` type carried in `Except`, the lazy page
generator is a function producing the finite list of yielded steps, and
the variable-length result tuple of `ParquetFile.column` is a
`List (Option Seg)` (Python `None` is `Option.none`, the "absent"
marker).  The Thrift compact-protocol decoding of `FileMetaData` and
`PageHeader` is an external collaborator of the source (it lives in the
`thriftpy`-loaded module, not in this repository), so metadata appears
here already in decoded form: a column chunk carries the list of
(page header, raw page payload) pairs that the transport + Thrift layer
would produce from the bytes at its file offset, in file order.
-/

/-- Python exception classes raised by the source, distinguished by kind
(constructor), never by message text.  `nameError` carries the undefined
identifier that triggered it. -/
inductive PyError where
  | valueError
  | typeError
  | assertionError
  | notImplemented
  | importError
  | indexError
  | ioError
  | nameError (missing : String)
deriving Repr, DecidableEq

/-- Physical column types, `parquet_thrift.Type`. -/
inductive PType where
  | BOOLEAN
  | INT32
  | INT64
  | INT96
  | FLOAT
  | DOUBLE
  | BYTE_ARRAY
  | FIXED_LEN_BYTE_ARRAY
  | other (tag : Nat)
deriving Repr, DecidableEq

/-- Compression codecs, `parquet_thrift.CompressionCodec`. -/
inductive Codec where
  | UNCOMPRESSED
  | SNAPPY
  | GZIP
  | LZO
  | BROTLI
  | LZ4
  | ZSTD
  | other (tag : Nat)
deriving Repr, DecidableEq

/-- Page encodings, `parquet_thrift.Encoding`. -/
inductive Encoding where
  | PLAIN
  | PLAIN_DICTIONARY
  | other (tag : Nat)
deriving Repr, DecidableEq

/-- `parquet_thrift.FieldRepetitionType`. -/
inductive RepetitionType where
  | REQUIRED
  | OPTIONAL
  | REPEATED
deriving Repr, DecidableEq

/-- A decoded value.  For `FLOAT`/`DOUBLE` the element is kept as its raw
IEEE-754 bit pattern (the little-endian byte group read as a number):
the source's `data.view` performs no arithmetic, only reinterpretation,
so the bit pattern is the faithful observable. -/
inductive PValue where
  | i32 (v : Int)
  | i64 (v : Int)
  | f32 (bits : Nat)
  | f64 (bits : Nat)
  | s12 (bytes : List Nat)
deriving Repr, DecidableEq

/-- One slot of the result tuple of `ParquetFile.column`: a level array
(numpy integer array) or a value array. -/
inductive Seg where
  | levels (ls : List Nat)
  | values (vs : List PValue)
deriving Repr, DecidableEq

/-- Little-endian bytes to the number they encode. -/
def leNat : List Nat → Nat
  | [] => 0
  | b :: rest => b + 256 * leNat rest

/-- The `w` little-endian bytes of `n` (mod 2^(8*w)). -/
def natLE : Nat → Nat → List Nat
  | 0, _ => []
  | w + 1, n => n % 256 :: natLE w (n / 256)

/-- Two's-complement reading of a `w`-byte unsigned value, the
interpretation numpy's signed views `<i4` / `<i8` give the raw bytes. -/
def toSigned (w : Nat) (n : Nat) : Int :=
  if n < 2 ^ (8 * w - 1) then (n : Int) else (n : Int) - 2 ^ (8 * w)

/-- Split a list into consecutive chunks of `w` elements (fueled so that
the definition is structural and computes in the kernel; the fuel is
always instantiated with the list length). -/
def chunkListF : Nat → Nat → List Nat → List (List Nat)
  | 0, _, _ => []
  | _ + 1, _, [] => []
  | fuel + 1, w, a :: t => (a :: t).take w :: chunkListF fuel w ((a :: t).drop w)

/-- numpy's `ndarray.view` on a flat uint8 array: reinterpret as a packed
array of `w`-byte items.  numpy raises `ValueError` when the byte length
is not a multiple of the item size. -/
def numpyView (w : Nat) (mk : List Nat → PValue) (data : List Nat) :
    Except PyError (List PValue) :=
  if data.length % w = 0 then .ok ((chunkListF data.length w data).map mk)
  else .error .valueError

/-- `parquet.py` lines 275-302, `ParquetFile._plain`: decode a
PLAIN-encoded byte run according to the physical type. -/
def ParquetFile.plain (data : List Nat) (metadataType : PType) :
    Except PyError (List PValue) :=
  match metadataType with
  | .BOOLEAN => .error .notImplemented
  | .INT32 => numpyView 4 (fun c => .i32 (toSigned 4 (leNat c))) data
  | .INT64 => numpyView 8 (fun c => .i64 (toSigned 8 (leNat c))) data
  | .INT96 => numpyView 12 (fun c => .s12 c) data
  | .FLOAT => numpyView 4 (fun c => .f32 (leNat c)) data
  | .DOUBLE => numpyView 8 (fun c => .f64 (leNat c)) data
  | .BYTE_ARRAY => .error .notImplemented
  | .FIXED_LEN_BYTE_ARRAY => .error .notImplemented
  | .other _ => .error .assertionError

/-- `parquet.py` lines 271-273, `ParquetFile._bitwidth`: unimplemented,
raises `NotImplementedError` for every argument. -/
def ParquetFile.bitwidth (_maxvalue : Nat) : Except PyError Nat :=
  .error .notImplemented

/-- The byte string "PAR1". -/
def magicPAR1 : List Nat := [80, 65, 82, 49]

/-- `parquet.py` lines 74-75 and 116-119: the framing check of
`ParquetFile.__init__` on an in-memory buffer.  Header magic is the
first 4 bytes, footer magic the last 4; a mismatch raises `ValueError`. -/
def checkMagic (memmap : List Nat) : Except PyError Unit :=
  if memmap.take 4 ≠ magicPAR1 then .error .valueError
  else if memmap.drop (memmap.length - 4) ≠ magicPAR1 then .error .valueError
  else .ok ()

/-- A decoded `PageHeader` (the Thrift decoding itself is external):
`compressed_page_size`, `uncompressed_page_size`, and the data-page
sub-record's `num_values` and `encoding`. -/
structure PageHeader where
  compressedPageSize : Nat
  uncompressedPageSize : Nat
  numValues : Nat
  encoding : Encoding
deriving Repr, DecidableEq

/-- The fields of `ColumnMetaData` the reader consumes. -/
structure ColumnChunkMeta where
  pathInSchema : List String
  type : PType
  codec : Codec
  numValues : Nat
deriving Repr, DecidableEq

/-- A column chunk of a row group.  `pages` is the decoded view of the
byte region starting at `fileOffset`: the (header, raw payload) pairs
the transport + Thrift layer yields when reading forward from there, in
file order.  The payload of a page is the `compressedPageSize`-byte
slice following its encoded header. -/
structure ColumnChunk where
  metaData : ColumnChunkMeta
  fileOffset : Nat
  pages : List (PageHeader × List Nat)
deriving Repr, DecidableEq

/-- A row group: its ordered column chunks. -/
structure RowGroup where
  columns : List ColumnChunk
deriving Repr, DecidableEq

/-- The leaf-schema bookkeeping attached by `recurse` during
`ParquetFile.__init__` (lines 126-140): `path`, `required`, `maxdef`,
`maxrep`. -/
structure SchemaLeaf where
  path : List String
  required : Bool
  maxdef : Nat
  maxrep : Nat
deriving Repr, DecidableEq

/-- A buffer-backed `ParquetFile` after `__init__`: the decoded footer
(`rowGroups`) plus the runtime capabilities of the process (whether the
optional `snappy` module imported, and its decompression behaviour,
which is external to this repository). -/
structure ParquetFile where
  rowGroups : List RowGroup
  snappyAvailable : Bool
  snappyDecompress : List Nat → Except PyError (List Nat)

/-- `parquet.py` lines 162-175, the buffer-backed `pagereader` generator:
starting from the chunk's first page, keep yielding
(header, compressed payload, start, stop) while the running value count
`start` is below the chunk's `num_values`; `stop` advances by the
page header's `num_values`.  Running out of pages while values are still
owed is a transport read past the end of the buffer (`IOError`). -/
def pagereader (numValues : Nat) :
    List (PageHeader × List Nat) → Nat →
    Except PyError (List (PageHeader × List Nat × Nat × Nat))
  | [], start => if start < numValues then .error .ioError else .ok []
  | (header, compressed) :: rest, start =>
    if start < numValues then
      match pagereader numValues rest (start + header.numValues) with
      | .ok tail => .ok ((header, compressed, start, start + header.numValues) :: tail)
      | .error e => .error e
    else .ok []

/-- `parquet.py` lines 193-213: the compression dispatch executed once
per `column` call.  `UNCOMPRESSED` yields the identity function; `GZIP`
yields a function whose body reads the undefined name `compresseddata`
(the parameter is `compressed`), so every call to it raises `NameError`;
`SNAPPY` without the optional dependency raises `ImportError` at
dispatch; `LZO`/`BROTLI`/`LZ4`/`ZSTD` raise `NotImplementedError`; any
unrecognized tag raises `AssertionError`. -/
def getDecompress (snappyAvailable : Bool)
    (snappyDecompress : List Nat → Except PyError (List Nat)) (codec : Codec) :
    Except PyError (List Nat → Nat → Nat → Except PyError (List Nat)) :=
  match codec with
  | .UNCOMPRESSED => .ok (fun compressed _ _ => .ok compressed)
  | .SNAPPY =>
    if snappyAvailable then .ok (fun compressed _ _ => snappyDecompress compressed)
    else .error .importError
  | .GZIP => .ok (fun _ _ _ => .error (.nameError "compresseddata"))
  | .LZO => .error .notImplemented
  | .BROTLI => .error .notImplemented
  | .LZ4 => .error .notImplemented
  | .ZSTD => .error .notImplemented
  | .other _ => .error .assertionError

/-- `parquet.py` lines 219-251, the body of the page loop of
`ParquetFile.column`: decompress the payload, run the definition-level
branch (lines 227-230: for a non-required leaf `_bitwidth` is consulted,
which raises), the repetition-level branch (lines 232-234: for a nested
path `_bitwidth` is consulted and then `NotImplementedError` is raised),
then dispatch on the page encoding; `PLAIN` decodes the remaining bytes
with `_plain`.  The result is the page's
(deflevelseg, replevelseg, dataseg) triple, each `none` when the
corresponding segment was not produced. -/
def processPage (decompress : List Nat → Nat → Nat → Except PyError (List Nat))
    (schema : SchemaLeaf) (meta : ColumnChunkMeta)
    (page : PageHeader × List Nat × Nat × Nat) :
    Except PyError (Option (List Nat) × Option (List Nat) × Option (List PValue)) :=
  match decompress page.2.1 page.1.compressedPageSize page.1.uncompressedPageSize with
  | .error e => .error e
  | .ok uncompressed =>
    match (if schema.required then Except.ok () else
            match ParquetFile.bitwidth schema.maxdef with
            | .error e => .error e
            | .ok bitwidth => if bitwidth > 0 then .error .notImplemented else .ok ()) with
    | .error e => .error e
    | .ok _ =>
      match (if schema.path.length > 1 then
              match ParquetFile.bitwidth schema.maxrep with
              | .error e => .error e
              | .ok _ => .error .notImplemented
            else Except.ok ()) with
      | .error e => .error e
      | .ok _ =>
        match page.1.encoding with
        | .PLAIN =>
          match ParquetFile.plain (uncompressed.drop 0) meta.type with
          | .error e => .error e
          | .ok dataseg => .ok (none, none, some dataseg)
        | .PLAIN_DICTIONARY => .error .notImplemented
        | .other _ => .error .assertionError

/-- `parquet.py` lines 253-269: assemble the result tuple.  Each enabled
switch contributes one slot, in the order definition levels, repetition
levels, values; an enabled switch with no collected segments yields
`None`, otherwise the concatenation of its per-page segments in page
order. -/
def buildOut (deflevels replevels data : Bool)
    (deflevelsegs replevelsegs : List (List Nat)) (datasegs : List (List PValue)) :
    List (Option Seg) :=
  (if deflevels then
    [if deflevelsegs.isEmpty then none else some (Seg.levels deflevelsegs.flatten)]
   else [])
  ++ (if replevels then
    [if replevelsegs.isEmpty then none else some (Seg.levels replevelsegs.flatten)]
   else [])
  ++ (if data then
    [if datasegs.isEmpty then none else some (Seg.values datasegs.flatten)]
   else [])

/-- `parquet.py` lines 149-269, `ParquetFile.column` on a buffer-backed
file: locate the chunk whose `path_in_schema` equals the leaf's path
(the not-found branch formats the undefined name `columnpath`, so it
raises `NameError`), build the decompression function, stream the pages,
process each page, and assemble the tuple.  A raised exception at any
step aborts the whole call. -/
def ParquetFile.column (pf : ParquetFile) (rowgroupid : Nat) (schema : SchemaLeaf)
    (deflevels replevels data parallel : Bool) :
    Except PyError (List (Option Seg)) :=
  if parallel then .error .notImplemented
  else
    match pf.rowGroups.get? rowgroupid with
    | none => .error .indexError
    | some rowgroup =>
      match rowgroup.columns.find?
          (fun c => decide (c.metaData.pathInSchema = schema.path)) with
      | none => .error (.nameError "columnpath")
      | some footercolumn =>
        match getDecompress pf.snappyAvailable pf.snappyDecompress
            footercolumn.metaData.codec with
        | .error e => .error e
        | .ok decompress =>
          match pagereader footercolumn.metaData.numValues footercolumn.pages 0 with
          | .error e => .error e
          | .ok pages =>
            match pages.mapM (processPage decompress schema footercolumn.metaData) with
            | .error e => .error e
            | .ok segs =>
              .ok (buildOut deflevels replevels data
                (if deflevels then segs.filterMap (fun s => s.1) else [])
                (if replevels then segs.filterMap (fun s => s.2.1) else [])
                (if data then segs.filterMap (fun s => s.2.2) else []))

/- Concrete single-page file of claim C1: one row group, one REQUIRED
INT32 column "x" with 3 values [1, 2, 3], UNCOMPRESSED, PLAIN. -/

/-- The one data page of the C1 scenario: 12 payload bytes, the
little-endian int32 values 1, 2, 3. -/
def pageC1 : PageHeader × List Nat :=
  (⟨12, 12, 3, .PLAIN⟩, [1, 0, 0, 0, 2, 0, 0, 0, 3, 0, 0, 0])

/-- The C1 file's single column chunk. -/
def chunkC1 : ColumnChunk :=
  ⟨⟨["x"], .INT32, .UNCOMPRESSED, 3⟩, 4, [pageC1]⟩

/-- The C1 buffer-backed `ParquetFile`. -/
def pfC1 : ParquetFile := ⟨[⟨[chunkC1]⟩], false, fun b => .ok b⟩

/-- The leaf descriptor of the C1 column: top-level, REQUIRED, so per
the source's `recurse` rule `maxdef = 0` and `maxrep = 0 + 1 = 1`. -/
def schemaC1 : SchemaLeaf := ⟨["x"], true, 0, 1⟩

/-- The raw bytes of the C1 file: header magic "PAR1", the page region,
the (externally decoded) footer bytes, the footer length word, footer
magic "PAR1". -/
def fileBytesC1 : List Nat :=
  magicPAR1 ++ [1, 0, 0, 0, 2, 0, 0, 0, 3, 0, 0, 0] ++
    [0, 0, 0, 0, 0, 0, 0, 0, 10, 0, 0, 0] ++ magicPAR1

/-- C1: for a valid file (header and footer magic "PAR1") holding a
single row group with one REQUIRED INT32 column chunk of the 3 values
[1, 2, 3], UNCOMPRESSED, PLAIN, in one page, `column` with
deflevels, replevels and data all enabled returns the 3-tuple
(absent, absent, [1, 2, 3]): the level slots hold the absent marker
(Python `None`), the value slot the decoded array. -/
theorem column_required_int32_concrete :
    checkMagic fileBytesC1 = .ok () ∧
    pfC1.column 0 schemaC1 true true true false =
      .ok [none, none, some (Seg.values [.i32 1, .i32 2, .i32 3])] := by
  constructor
  · rfl
  · rfl

/- Claim C6: the compression dispatch. -/

/-- C6: the compression dispatch yields the identity decompression
function for UNCOMPRESSED; fails with the NotSupported kind
(`NotImplementedError`) for each of the recognized codecs LZO, BROTLI,
LZ4 and ZSTD; fails with the InvalidFormat kind (`AssertionError`) for
any unrecognized codec tag; and the two failure kinds are distinct
constructors, distinguishable without inspecting message text. -/
theorem codec_dispatch_kinds :
    ∀ (sa : Bool) (sd : List Nat → Except PyError (List Nat)),
      (∃ f, getDecompress sa sd Codec.UNCOMPRESSED = .ok f ∧
        ∀ compressed cb ub, f compressed cb ub = .ok compressed) ∧
      getDecompress sa sd Codec.LZO = .error .notImplemented ∧
      getDecompress sa sd Codec.BROTLI = .error .notImplemented ∧
      getDecompress sa sd Codec.LZ4 = .error .notImplemented ∧
      getDecompress sa sd Codec.ZSTD = .error .notImplemented ∧
      (∀ tag, getDecompress sa sd (Codec.other tag) = .error .assertionError) ∧
      PyError.notImplemented ≠ PyError.assertionError := by
  intro sa sd
  exact ⟨⟨_, rfl, fun _ _ _ => rfl⟩, rfl, rfl, rfl, rfl, fun _ => rfl, by decide⟩

/- Claim C7: the GZIP decompression function. -/

/-- A concrete compressed payload: the gzip encoding of the three bytes
"abc" (header, deflate block, CRC32, length). -/
def gzipAbc : List Nat :=
  [31, 139, 8, 0, 0, 0, 0, 0, 0, 3, 75, 76, 74, 6, 0,
   194, 65, 36, 53, 3, 0, 0, 0]

/-- C7 (code bug): the dispatch for GZIP succeeds, but the function it
returns raises `NameError` on every call — its body reads the undefined
name `compresseddata` instead of its parameter `compressed` — so a GZIP
page is never decompressed, contradicting the specified behaviour of
returning the deflate-with-gzip-header decompression of the payload. -/
theorem gzip_decompress_nameerror :
    (getDecompress true (fun b => .ok b) Codec.GZIP).map
        (fun f => f gzipAbc 23 3) =
      .ok (.error (.nameError "compresseddata")) := by
  rfl

/- Claim C8: column-path-not-found branch. -/

/-- A file whose only row group holds a single chunk at path ["x"]. -/
def pfOnlyX : ParquetFile :=
  ⟨[⟨[⟨⟨["x"], .INT32, .UNCOMPRESSED, 3⟩, 4, [pageC1]⟩]⟩], false, fun b => .ok b⟩

/-- The leaf descriptor of a column "y" absent from the row group. -/
def schemaY : SchemaLeaf := ⟨["y"], true, 0, 1⟩

/-- C8 (code bug): requesting a column whose `path_in_schema` matches no
chunk of the row group raises, but not the intended
`AssertionError`-class failure naming the missing path: building that
error's message reads the undefined name `columnpath` (the source never
defines it), so the call raises `NameError` instead.  The call does
fail fatally — it never returns a partial or empty result. -/
theorem column_not_found_nameerror :
    pfOnlyX.column 0 schemaY true true true false =
      .error (.nameError "columnpath") := by
  rfl

/- Claim C5: the OPTIONAL variant of the C1 scenario. -/

/-- The leaf descriptor of the C5 column: top-level OPTIONAL, so per the
source's `recurse` rule `maxdef = 0 + 1 = 1` and `maxrep = 0`. -/
def schemaC5 : SchemaLeaf := ⟨["x"], false, 1, 0⟩

/-- C5 (counterexample): on the same single-page UNCOMPRESSED/PLAIN
INT32 file with the column declared OPTIONAL (maxdef 1) and no nulls,
`column` with deflevels enabled does not return the definition-level
array [1, 1, 1] alongside [1, 2, 3]: it raises `NotImplementedError`,
because the non-required branch consults `_bitwidth`, which is
unimplemented. -/
theorem optional_deflevels_counterexample :
    pfC1.column 0 schemaC5 true true true false ≠
      .ok [some (Seg.levels [1, 1, 1]), none,
           some (Seg.values [.i32 1, .i32 2, .i32 3])] := by
  have h : pfC1.column 0 schemaC5 true true true false = .error .notImplemented := rfl
  rw [h]
  simp

/-- C5 (amended): on the OPTIONAL variant of the C1 file, `column`
raises `NotImplementedError` (the NotSupported kind) for every setting
of the three switches: definition-level decoding is unimplemented
(`_bitwidth` raises before any switch is consulted). -/
theorem optional_deflevels_not_implemented :
    ∀ (deflevels replevels data : Bool),
      pfC1.column 0 schemaC5 deflevels replevels data false =
        .error .notImplemented := by
  intro deflevels replevels data
  rfl

/- Claim C10: purity of buffer-backed column reads. -/

/-- `ParquetFile.column` with the post-call state made explicit.  Every
assignment in the source method (lines 149-269) targets a method local —
the per-page transport `tin`, the offset `index`, the `*segs` lists and
the tuple `out`; `self.memmap`, `self.footer` and the flattened schema
are only read — so the file after the call is the file before it. -/
def ParquetFile.columnSt (pf : ParquetFile) (rowgroupid : Nat) (schema : SchemaLeaf)
    (deflevels replevels data parallel : Bool) :
    Except PyError (List (Option Seg)) × ParquetFile :=
  (pf.column rowgroupid schema deflevels replevels data parallel, pf)

/-- C10: a buffer-backed column read leaves the file state — buffer,
footer metadata, flattened schema — unchanged, and two consecutive calls
with identical arguments (the second running on the state the first
left behind) return equal results. -/
theorem column_buffer_pure_deterministic :
    ∀ (pf : ParquetFile) (rowgroupid : Nat) (schema : SchemaLeaf)
      (deflevels replevels data parallel : Bool),
      (pf.columnSt rowgroupid schema deflevels replevels data parallel).2 = pf ∧
      ((pf.columnSt rowgroupid schema deflevels replevels data parallel).2.columnSt
          rowgroupid schema deflevels replevels data parallel).1 =
        (pf.columnSt rowgroupid schema deflevels replevels data parallel).1 := by
  intro pf rowgroupid schema deflevels replevels data parallel
  exact ⟨rfl, rfl⟩
/- Claim C2: the schema-flattening traversal (`recurse`, lines 126-147). -/

/-- A raw schema element of the flat pre-order `footer.schema` sequence:
`name`, `repetition_type` (absent on the file root), and `num_children`
(the source maps the absent case to 0 before use). -/
structure SchemaElement where
  name : String
  repetitionType : Option RepetitionType
  numChildren : Nat
deriving Repr, DecidableEq

/-- A schema node enriched in place by `recurse`: the element plus the
attached `path`, `required`, `maxdef`, `maxrep` and `children` (the
source appends the child elements, which its recursive calls enrich, so
the end state is this tree). -/
inductive STree where
  | node (name : String) (repetitionType : Option RepetitionType)
      (path : List String) (required : Bool) (maxdef maxrep : Nat)
      (children : List STree)

mutual

/-- `parquet.py` lines 126-140, `recurse`: enrich the element at `index`
given the parent's accumulated path and (maxdef, maxrep), then consume
its `num_children` subtrees, returning the index of the last element
consumed together with the enriched subtree.  `fuel` only bounds the
recursion depth so the definitions are structural; it is instantiated
large enough by every caller, and exhaustion (like an index out of
range) yields `none`. -/
def recurseNode (fuel : Nat) (els : List SchemaElement) (index : Nat)
    (path : List String) (maxdef maxrep : Nat) : Option (Nat × STree) :=
  match fuel with
  | 0 => none
  | fuel + 1 =>
    (els.get? index).bind fun el =>
      let required := decide (el.repetitionType = some RepetitionType.REQUIRED)
      let md := maxdef + (if required then 0 else 1)
      let mr := maxrep + (if required then 1 else 0)
      (recurseChildren fuel els el.numChildren index (path ++ [el.name]) md mr).bind
        fun p =>
          some (p.1, .node el.name el.repetitionType (path ++ [el.name])
                  required md mr p.2)
termination_by structural fuel

/-- The `for i in range(schema.num_children)` loop of `recurse`: consume
`n` consecutive child subtrees starting right after `index`, threading
the running index exactly as `index += 1; index = recurse(index, ...)`
does. -/
def recurseChildren (fuel : Nat) (els : List SchemaElement) (n index : Nat)
    (path : List String) (maxdef maxrep : Nat) : Option (Nat × List STree) :=
  match fuel, n with
  | 0, _ => none
  | _ + 1, 0 => some (index, [])
  | fuel + 1, n + 1 =>
    (recurseNode fuel els (index + 1) path maxdef maxrep).bind fun q =>
      (recurseChildren fuel els n q.1 path maxdef maxrep).bind fun p =>
        some (p.1, q.2 :: p.2)
termination_by structural fuel

end

/-- `parquet.py` lines 142-147: the `__init__` loop that collects the
top-level fields.  Starting at index 0 (the file root, which is never
itself enriched), while `index + 1` is in range: step to the next
element, enrich its whole subtree with `recurse(index, [], 0, 0)`, and
resume after it. -/
def buildFieldsGo (els : List SchemaElement) : Nat → Nat → Option (List STree)
  | 0, _ => none
  | fuel + 1, index =>
    if index + 1 < els.length then
      (recurseNode fuel els (index + 1) [] 0 0).bind fun p =>
        (buildFieldsGo els fuel p.1).map fun rest => p.2 :: rest
    else some []

/-- `ParquetFile.__init__`'s `self.fields`: the enriched top-level
subtrees of the flat footer schema. -/
def buildFields (els : List SchemaElement) (fuel : Nat) : Option (List STree) :=
  buildFieldsGo els fuel 0

/-- The literal bookkeeping rule of `recurse`, stated relative to the
parent's accumulated (maxdef, maxrep): `required` mirrors the element's
repetition type, `maxdef` grows by 1 exactly when not required, `maxrep`
grows by 1 exactly when required (the source's literal rule, not the
conventional increment-on-REPEATED rule), and every child obeys the same
rule relative to this node's values. -/
inductive RuleOK : Nat → Nat → STree → Prop where
  | node : ∀ (md mr : Nat) (name : String) (rt : Option RepetitionType)
      (path : List String) (req : Bool) (d r : Nat) (cs : List STree),
      req = decide (rt = some RepetitionType.REQUIRED) →
      d = md + (if req then 0 else 1) →
      r = mr + (if req then 1 else 0) →
      (∀ c ∈ cs, RuleOK d r c) →
      RuleOK md mr (.node name rt path req d r cs)

/-- Every subtree `recurse` produces, and every child list its loop
produces, obeys the literal rule relative to the (maxdef, maxrep) of the
invocation. -/
theorem recurse_ruleOK (els : List SchemaElement) :
    ∀ fuel : Nat,
      (∀ (index : Nat) (path : List String) (maxdef maxrep index' : Nat) (t : STree),
        recurseNode fuel els index path maxdef maxrep = some (index', t) →
        RuleOK maxdef maxrep t) ∧
      (∀ (n index : Nat) (path : List String) (maxdef maxrep index' : Nat)
        (ts : List STree),
        recurseChildren fuel els n index path maxdef maxrep = some (index', ts) →
        ∀ t ∈ ts, RuleOK maxdef maxrep t) := by
  intro fuel
  induction fuel with
  | zero =>
    refine ⟨?_, ?_⟩
    · intro index path maxdef maxrep index' t h
      simp [recurseNode] at h
    · intro n index path maxdef maxrep index' ts h
      simp [recurseChildren] at h
  | succ fuel ih =>
    obtain ⟨ihN, ihC⟩ := ih
    refine ⟨?_, ?_⟩
    · intro index path maxdef maxrep index' t h
      simp only [recurseNode, Option.bind_eq_some, Option.some.injEq,
        Prod.mk.injEq] at h
      obtain ⟨el, -, p, hcs, -, rfl⟩ := h
      exact RuleOK.node _ _ _ _ _ _ _ _ _ rfl rfl rfl
        (fun c hc => ihC _ _ _ _ _ _ _ hcs c hc)
    · intro n index path maxdef maxrep index' ts h
      cases n with
      | zero =>
        simp only [recurseChildren, Option.some.injEq, Prod.mk.injEq] at h
        obtain ⟨-, rfl⟩ := h
        intro t ht
        simp at ht
      | succ n =>
        simp only [recurseChildren, Option.bind_eq_some, Option.some.injEq,
          Prod.mk.injEq] at h
        obtain ⟨q, hq, p, hp, -, rfl⟩ := h
        intro t ht
        rcases List.mem_cons.mp ht with rfl | hmem
        · exact ihN _ _ _ _ _ _ hq
        · exact ihC _ _ _ _ _ _ _ hp t hmem

/-- C2: every schema node visited by the flattening traversal obeys the
literal bookkeeping rule: `required = (repetitionType = REQUIRED)`,
`maxdef = parent maxdef + (0 if required else 1)`,
`maxrep = parent maxrep + (1 if required else 0)` — the literal
increment-maxrep-on-REQUIRED rule, not the conventional
increment-on-REPEATED rule — with the top-level fields accumulating from
(0, 0), and the rule propagating to every descendant via `RuleOK`. -/
theorem schema_flatten_literal_level_rule (els : List SchemaElement) :
    ∀ (fuel : Nat) (trees : List STree),
      buildFields els fuel = some trees →
      ∀ t ∈ trees, RuleOK 0 0 t := by
  have main : ∀ (fuel index : Nat) (trees : List STree),
      buildFieldsGo els fuel index = some trees → ∀ t ∈ trees, RuleOK 0 0 t := by
    intro fuel
    induction fuel with
    | zero => intro index trees h; simp [buildFieldsGo] at h
    | succ fuel ih =>
      intro index trees h t ht
      simp only [buildFieldsGo] at h
      by_cases hlt : index + 1 < els.length
      · rw [if_pos hlt] at h
        simp only [Option.bind_eq_some, Option.map_eq_some'] at h
        obtain ⟨p, hnode, rest, hrest, rfl⟩ := h
        rcases List.mem_cons.mp ht with rfl | hmem
        · exact (recurse_ruleOK els fuel).1 _ _ _ _ _ _ hnode
        · exact ih _ _ hrest t hmem
      · rw [if_neg hlt] at h
        simp only [Option.some.injEq] at h
        subst h
        simp at ht
  intro fuel trees h
  exact main fuel 0 trees h

/-- A three-element demonstration schema: the file root followed by a
REQUIRED group "a" with one REQUIRED leaf child "b". -/
def demoEls : List SchemaElement :=
  [⟨"root", none, 1⟩,
   ⟨"a", some .REQUIRED, 1⟩,
   ⟨"b", some .REQUIRED, 0⟩]

/-- The tree the traversal builds from `demoEls`: under the literal rule
the REQUIRED top-level node gets maxrep 1 and its REQUIRED child
maxrep 2 (the conventional Dremel rule would leave both at 0). -/
def demoTree : STree :=
  .node "a" (some .REQUIRED) ["a"] true 0 1
    [.node "b" (some .REQUIRED) ["a", "b"] true 0 2 []]


theorem schema_flatten_literal_level_rule_witness :
    buildFields demoEls 5 = some [demoTree] ∧ RuleOK 0 0 demoTree :=
  ⟨rfl, schema_flatten_literal_level_rule demoEls 5 [demoTree] rfl demoTree
    (List.mem_singleton.mpr rfl)⟩

/- Claim C4: the PLAIN fixed-width round trip. -/

/-- The little-endian byte run a decoded value reinterprets: the
inverse reading of the `data.view` reinterpretation. -/
def pvalueBytes : PValue → List Nat
  | .i32 v => natLE 4 (Int.toNat (v % (2 : Int) ^ 32))
  | .i64 v => natLE 8 (Int.toNat (v % (2 : Int) ^ 64))
  | .f32 bits => natLE 4 bits
  | .f64 bits => natLE 8 bits
  | .s12 bytes => bytes

/-- Writing back the little-endian reading of a byte run recovers it. -/
theorem natLE_leNat : ∀ (c : List Nat), (∀ b ∈ c, b < 256) →
    natLE c.length (leNat c) = c := by
  intro c
  induction c with
  | nil => intro _; rfl
  | cons b rest ih =>
    intro hb
    have hb0 : b < 256 := hb b (List.mem_cons_self _ _)
    simp only [List.length_cons, natLE, leNat]
    rw [Nat.add_mul_mod_self_left, Nat.mod_eq_of_lt hb0,
      Nat.add_mul_div_left _ _ (by norm_num : 0 < 256),
      Nat.div_eq_of_lt hb0, Nat.zero_add]
    rw [ih fun x hx => hb x (List.mem_cons_of_mem _ hx)]

/-- A byte run reads below 2^(8 * length). -/
theorem leNat_lt : ∀ (c : List Nat), (∀ b ∈ c, b < 256) →
    leNat c < 2 ^ (8 * c.length) := by
  intro c
  induction c with
  | nil => intro _; simp [leNat]
  | cons b rest ih =>
    intro hb
    have hb0 : b < 256 := hb b (List.mem_cons_self _ _)
    have hr : leNat rest < 2 ^ (8 * rest.length) :=
      ih fun x hx => hb x (List.mem_cons_of_mem _ hx)
    simp only [leNat, List.length_cons]
    have : 8 * (rest.length + 1) = 8 * rest.length + 8 := by ring
    rw [this, pow_add]
    calc b + 256 * leNat rest < 256 * (leNat rest + 1) := by omega
    _ ≤ 256 * 2 ^ (8 * rest.length) := by
      have : leNat rest + 1 ≤ 2 ^ (8 * rest.length) := hr
      exact Nat.mul_le_mul_left _ this
    _ = 2 ^ (8 * rest.length) * 2 ^ 8 := by ring
  
/-- The signed reinterpretation reduced back mod 2^(8*w) recovers the
unsigned reading. -/
theorem toSigned_mod (w n : Nat) (hn : n < 2 ^ (8 * w)) :
    Int.toNat (toSigned w n % (2 : Int) ^ (8 * w)) = n := by
  have hcast : (n : Int) < (2 : Int) ^ (8 * w) := by exact_mod_cast hn
  have hpos : (0 : Int) ≤ (n : Int) := Int.natCast_nonneg n
  unfold toSigned
  by_cases h : n < 2 ^ (8 * w - 1)
  · rw [if_pos h, Int.emod_eq_of_lt hpos hcast, Int.toNat_natCast]
  · rw [if_neg h]
    have hsub : ((n : Int) - 2 ^ (8 * w)) % 2 ^ (8 * w) = (n : Int) % 2 ^ (8 * w) := by
      rw [Int.sub_emod, Int.emod_self, sub_zero, Int.emod_emod_of_dvd _ dvd_rfl]
    rw [hsub, Int.emod_eq_of_lt hpos hcast, Int.toNat_natCast]

/-- The chunking underlying `numpyView`: when the byte length is exactly
`w * L` (and the fuel covers the list), it produces `L` chunks of `w`
bytes whose concatenation is the input. -/
theorem chunkListF_spec (w : Nat) (hw : 0 < w) :
    ∀ (L : Nat) (data : List Nat) (fuel : Nat), data.length = w * L →
      data.length ≤ fuel →
      (chunkListF fuel w data).length = L ∧
      (∀ c ∈ chunkListF fuel w data, c.length = w) ∧
      (chunkListF fuel w data).flatten = data := by
  intro L
  induction L with
  | zero =>
    intro data fuel hlen hfuel
    have hnil : data = [] := by
      have h0 : data.length = 0 := by rw [hlen, Nat.mul_zero]
      exact List.length_eq_zero.mp h0
    subst hnil
    cases fuel <;> simp [chunkListF]
  | succ L ih =>
    intro data fuel hlen hfuel
    cases data with
    | nil =>
      rw [List.length_nil, Nat.mul_succ] at hlen
      omega
    | cons a t =>
      cases fuel with
      | zero => simp at hfuel
      | succ fuel =>
        have hlena : (a :: t).length = w * L + w := by rw [hlen, Nat.mul_succ]
        have hwle : w ≤ (a :: t).length := by rw [hlena]; exact Nat.le_add_left w _
        have hlen' : ((a :: t).drop w).length = w * L := by
          rw [List.length_drop, hlena, Nat.add_sub_cancel]
        have hfuel' : ((a :: t).drop w).length ≤ fuel := by
          rw [List.length_drop]
          have h1 : 0 < w := hw
          simp only [List.length_cons] at hfuel hwle ⊢
          omega
        obtain ⟨h1, h2, h3⟩ := ih _ fuel hlen' hfuel'
        simp only [chunkListF]
        refine ⟨by simp [h1], ?_, ?_⟩
        · intro c hc
          rcases List.mem_cons.mp hc with rfl | hm
          · rw [List.length_take]
            omega
          · exact h2 c hm
        · rw [List.flatten_cons, h3, List.take_append_drop]

/-- The round trip through `numpyView` for any item maker `mk` whose
byte reinterpretation inverts it on `w`-byte chunks. -/
theorem numpyView_roundtrip (w : Nat) (hw : 0 < w) (mk : List Nat → PValue)
    (hmk : ∀ c, c.length = w → (∀ b ∈ c, b < 256) → pvalueBytes (mk c) = c) :
    ∀ (data : List Nat) (L : Nat), data.length = w * L →
      (∀ b ∈ data, b < 256) →
      ∃ vs, numpyView w mk data = .ok vs ∧ vs.length = L ∧
        (vs.map pvalueBytes).flatten = data := by
  intro data L hlen hbytes
  obtain ⟨h1, h2, h3⟩ := chunkListF_spec w hw L data data.length hlen (le_refl _)
  refine ⟨(chunkListF data.length w data).map mk, ?_, by simp [h1], ?_⟩
  · unfold numpyView
    rw [if_pos (by rw [hlen]; exact Nat.mul_mod_right w L)]
  · rw [List.map_map]
    have hcongr : ∀ c ∈ chunkListF data.length w data, (pvalueBytes ∘ mk) c = id c := by
      intro c hc
      exact hmk c (h2 c hc) fun b hb =>
        hbytes b (by rw [← h3]; exact List.mem_flatten.mpr ⟨c, hc, hb⟩)
    rw [List.map_congr_left hcongr, List.map_id, h3]

/-- The INT32 item maker of `_plain` is inverted by the byte
reinterpretation on 4-byte chunks. -/
theorem i32_bytes_inv : ∀ c : List Nat, c.length = 4 → (∀ b ∈ c, b < 256) →
    pvalueBytes (PValue.i32 (toSigned 4 (leNat c))) = c := by
  intro c hc hb
  simp only [pvalueBytes]
  have hlt : leNat c < 2 ^ (8 * 4) := by
    rw [show (8 * 4 : Nat) = 8 * c.length by rw [hc]]
    exact leNat_lt c hb
  have h2 := toSigned_mod 4 (leNat c) hlt
  rw [show ((2 : Int) ^ 32) = (2 : Int) ^ (8 * 4) by norm_num, h2]
  have h3 := natLE_leNat c hb
  rwa [hc] at h3

/-- The INT64 item maker of `_plain` is inverted by the byte
reinterpretation on 8-byte chunks. -/
theorem i64_bytes_inv : ∀ c : List Nat, c.length = 8 → (∀ b ∈ c, b < 256) →
    pvalueBytes (PValue.i64 (toSigned 8 (leNat c))) = c := by
  intro c hc hb
  simp only [pvalueBytes]
  have hlt : leNat c < 2 ^ (8 * 8) := by
    rw [show (8 * 8 : Nat) = 8 * c.length by rw [hc]]
    exact leNat_lt c hb
  have h2 := toSigned_mod 8 (leNat c) hlt
  rw [show ((2 : Int) ^ 64) = (2 : Int) ^ (8 * 8) by norm_num, h2]
  have h3 := natLE_leNat c hb
  rwa [hc] at h3

/-- The FLOAT item maker of `_plain` is inverted by the byte
reinterpretation on 4-byte chunks. -/
theorem f32_bytes_inv : ∀ c : List Nat, c.length = 4 → (∀ b ∈ c, b < 256) →
    pvalueBytes (PValue.f32 (leNat c)) = c := by
  intro c hc hb
  simp only [pvalueBytes]
  have h3 := natLE_leNat c hb
  rwa [hc] at h3

/-- The DOUBLE item maker of `_plain` is inverted by the byte
reinterpretation on 8-byte chunks. -/
theorem f64_bytes_inv : ∀ c : List Nat, c.length = 8 → (∀ b ∈ c, b < 256) →
    pvalueBytes (PValue.f64 (leNat c)) = c := by
  intro c hc hb
  simp only [pvalueBytes]
  have h3 := natLE_leNat c hb
  rwa [hc] at h3

/-- C4: decoding a PLAIN byte run of length w * L for INT32 / INT64 /
FLOAT / DOUBLE (item widths 4, 8, 4, 8) succeeds, yields exactly L
elements, and the concatenation of the elements' little-endian byte
reinterpretations is the uncompressed source byte run — a round trip
with no transformation beyond endianness. -/
theorem plain_fixed_width_roundtrip :
    ∀ (t : PType) (w : Nat),
      ((t = PType.INT32 ∧ w = 4) ∨ (t = PType.INT64 ∧ w = 8) ∨
       (t = PType.FLOAT ∧ w = 4) ∨ (t = PType.DOUBLE ∧ w = 8)) →
      ∀ (data : List Nat) (L : Nat), data.length = w * L →
        (∀ b ∈ data, b < 256) →
        ∃ vs, ParquetFile.plain data t = .ok vs ∧ vs.length = L ∧
          (vs.map pvalueBytes).flatten = data := by
  intro t w hty data L hlen hbytes
  rcases hty with ⟨rfl, rfl⟩ | ⟨rfl, rfl⟩ | ⟨rfl, rfl⟩ | ⟨rfl, rfl⟩
  · simpa only [ParquetFile.plain] using
      numpyView_roundtrip 4 (by norm_num) (fun c => PValue.i32 (toSigned 4 (leNat c)))
        (fun c hc hb => i32_bytes_inv c hc hb) data L hlen hbytes
  · simpa only [ParquetFile.plain] using
      numpyView_roundtrip 8 (by norm_num) (fun c => PValue.i64 (toSigned 8 (leNat c)))
        (fun c hc hb => i64_bytes_inv c hc hb) data L hlen hbytes
  · simpa only [ParquetFile.plain] using
      numpyView_roundtrip 4 (by norm_num) (fun c => PValue.f32 (leNat c))
        (fun c hc hb => f32_bytes_inv c hc hb) data L hlen hbytes
  · simpa only [ParquetFile.plain] using
      numpyView_roundtrip 8 (by norm_num) (fun c => PValue.f64 (leNat c))
        (fun c hc hb => f64_bytes_inv c hc hb) data L hlen hbytes

theorem plain_fixed_width_roundtrip_witness :
    ∃ vs, ParquetFile.plain [1, 0, 0, 0, 2, 0, 0, 0, 3, 0, 0, 0] PType.INT32 = .ok vs ∧
      vs.length = 3 ∧
      (vs.map pvalueBytes).flatten = [1, 0, 0, 0, 2, 0, 0, 0, 3, 0, 0, 0] :=
  plain_fixed_width_roundtrip PType.INT32 4 (Or.inl ⟨rfl, rfl⟩)
    [1, 0, 0, 0, 2, 0, 0, 0, 3, 0, 0, 0] 3 (by decide) (by decide)

/- Claim C3: page count sum and page-order concatenation. -/

/-- When the page counts sum exactly to the chunk's numValues (the
data-model invariant) and no page is empty, the pagereader succeeds and
yields every page with its value range, in file order. -/
theorem pagereader_exact (total : Nat) :
    ∀ (pages : List (PageHeader × List Nat)) (start : Nat),
      start + (pages.map (fun p => p.1.numValues)).sum = total →
      (∀ p ∈ pages, 0 < p.1.numValues) →
      ∃ ys, pagereader total pages start = .ok ys ∧
        ys.map (fun y => (y.1, y.2.1)) = pages ∧
        start + (ys.map (fun y => y.1.numValues)).sum = total := by
  intro pages
  induction pages with
  | nil =>
    intro start h hpos
    simp only [List.map_nil, List.sum_nil, Nat.add_zero] at h
    refine ⟨[], ?_, rfl, by simp [h]⟩
    simp only [pagereader]
    rw [if_neg (by omega)]
  | cons p rest ih =>
    intro start h hpos
    obtain ⟨header, compressed⟩ := p
    simp only [List.map_cons, List.sum_cons] at h
    have hp0 : 0 < header.numValues := hpos _ (List.mem_cons_self _ _)
    have hlt : start < total := by omega
    obtain ⟨ys, hys, hproj, hsum⟩ := ih (start + header.numValues) (by omega)
      (fun q hq => hpos q (List.mem_cons_of_mem _ hq))
    refine ⟨(header, compressed, start, start + header.numValues) :: ys, ?_, ?_, ?_⟩
    · simp only [pagereader]
      rw [if_pos hlt, hys]
    · simp [hproj]
    · simp only [List.map_cons, List.sum_cons] at hsum ⊢
      omega

/-- Processing one yielded page of an UNCOMPRESSED, top-level REQUIRED
PLAIN column: the identity decompressor returns the payload, both level
branches are skipped, and the PLAIN branch decodes the payload. -/
theorem processPage_plain_ok (schema : SchemaLeaf) (meta : ColumnChunkMeta)
    (hreq : schema.required = true) (hlen1 : ¬ schema.path.length > 1)
    (y : PageHeader × List Nat × Nat × Nat) (v : List PValue)
    (henc : y.1.encoding = Encoding.PLAIN)
    (hv : ParquetFile.plain y.2.1 meta.type = .ok v) :
    processPage (fun compressed _ _ => .ok compressed) schema meta y =
      .ok (none, none, some v) := by
  unfold processPage
  rw [hreq, henc]
  simp only [if_true, if_neg hlen1, List.drop_zero, hv]

/-- Processing the yielded pages of an UNCOMPRESSED, top-level REQUIRED
PLAIN column succeeds page by page, producing exactly the per-page PLAIN
decodings. -/
theorem mapM_processPage_plain (schema : SchemaLeaf) (meta : ColumnChunkMeta)
    (hreq : schema.required = true) (hlen1 : ¬ schema.path.length > 1) :
    ∀ (ys : List (PageHeader × List Nat × Nat × Nat)) (vs : List (List PValue)),
      (∀ p ∈ ys.map (fun y => (y.1, y.2.1)), p.1.encoding = Encoding.PLAIN) →
      (ys.map (fun y => (y.1, y.2.1))).mapM
          (fun p => ParquetFile.plain p.2 meta.type) = .ok vs →
      ys.mapM (processPage (fun compressed _ _ => .ok compressed) schema meta) =
        .ok (vs.map (fun v =>
          ((none : Option (List Nat)), (none : Option (List Nat)), some v))) := by
  intro ys
  induction ys with
  | nil =>
    intro vs _ hm
    simp only [List.map_nil, List.mapM_nil] at hm ⊢
    simp only [pure, Except.pure, Except.ok.injEq] at hm
    subst hm
    simp [pure, Except.pure]
  | cons y ys ih =>
    intro vs henc hm
    simp only [List.map_cons, List.mapM_cons] at hm
    cases hv : ParquetFile.plain y.2.1 meta.type with
    | error e =>
      rw [hv] at hm
      simp [bind, Except.bind] at hm
    | ok v =>
      rw [hv] at hm
      simp only [bind, Except.bind] at hm
      cases hrest : (ys.map (fun y => (y.1, y.2.1))).mapM
          (fun p => ParquetFile.plain p.2 meta.type) with
      | error e =>
        rw [hrest] at hm
        simp at hm
      | ok vs' =>
        rw [hrest] at hm
        simp only [pure, Except.pure, Except.ok.injEq] at hm
        subst hm
        have hy : y.1.encoding = Encoding.PLAIN :=
          henc (y.1, y.2.1) (by simp)
        have hys := ih vs' (fun p hp => henc p (List.mem_cons_of_mem _ hp)) hrest
        simp only [List.mapM_cons, processPage_plain_ok schema meta hreq hlen1 y v hy hv,
          hys, bind, Except.bind, List.map_cons, pure, Except.pure]

/-- Projecting the first component of the per-page triples of a PLAIN
required column yields no definition-level segments. -/
theorem filterMap_segs_fst (vs : List (List PValue)) :
    (vs.map (fun v => ((none : Option (List Nat)), (none : Option (List Nat)),
        some v))).filterMap (fun s => s.1) = [] := by
  induction vs with
  | nil => rfl
  | cons v vs ih => simp [ih]

/-- Projecting the second component likewise yields no repetition-level
segments. -/
theorem filterMap_segs_snd (vs : List (List PValue)) :
    (vs.map (fun v => ((none : Option (List Nat)), (none : Option (List Nat)),
        some v))).filterMap (fun s => s.2.1) = [] := by
  induction vs with
  | nil => rfl
  | cons v vs ih => simp [ih]

/-- Projecting the third component recovers the per-page value arrays. -/
theorem filterMap_segs_data (vs : List (List PValue)) :
    (vs.map (fun v => ((none : Option (List Nat)), (none : Option (List Nat)),
        some v))).filterMap (fun s => s.2.2) = vs := by
  induction vs with
  | nil => rfl
  | cons v vs ih => simp [ih]

/-- A successful `mapM` preserves length. -/
theorem mapM_ok_length {α β : Type} (f : α → Except PyError β) :
    ∀ (l : List α) (vs : List β), l.mapM f = .ok vs → vs.length = l.length := by
  intro l
  induction l with
  | nil =>
    intro vs hm
    simp only [List.mapM_nil, pure, Except.pure, Except.ok.injEq] at hm
    subst hm
    rfl
  | cons a l ih =>
    intro vs hm
    simp only [List.mapM_cons] at hm
    cases hf : f a with
    | error e => rw [hf] at hm; simp [bind, Except.bind] at hm
    | ok b =>
      rw [hf] at hm
      simp only [bind, Except.bind] at hm
      cases hrest : l.mapM f with
      | error e => rw [hrest] at hm; simp at hm
      | ok bs =>
        rw [hrest] at hm
        simp only [pure, Except.pure, Except.ok.injEq] at hm
        subst hm
        simp [ih bs hrest]

/-- Assembling the tuple with all three switches on, no level segments
and a nonempty value segment list. -/
theorem buildOut_all_data (vs : List (List PValue)) (h : vs ≠ []) :
    buildOut true true true [] [] vs =
      [none, none, some (Seg.values vs.flatten)] := by
  cases vs with
  | nil => exact absurd rfl h
  | cons v vs => rfl

/- Two one-value pages with different contents, for the order-dependence
part of C3. -/

/-- A one-value INT32 page holding 5. -/
def pageP1 : PageHeader × List Nat := (⟨4, 4, 1, .PLAIN⟩, [5, 0, 0, 0])

/-- A one-value INT32 page holding 7. -/
def pageP2 : PageHeader × List Nat := (⟨4, 4, 1, .PLAIN⟩, [7, 0, 0, 0])

/-- The leaf descriptor of the two-page demonstration column. -/
def schemaSwap : SchemaLeaf := ⟨["s"], true, 0, 1⟩

/-- The demonstration file with pages in order [P1, P2]. -/
def pfSwapA : ParquetFile :=
  ⟨[⟨[⟨⟨["s"], .INT32, .UNCOMPRESSED, 2⟩, 4, [pageP1, pageP2]⟩]⟩], false,
    fun b => .ok b⟩

/-- The same file with the two pages swapped. -/
def pfSwapB : ParquetFile :=
  ⟨[⟨[⟨⟨["s"], .INT32, .UNCOMPRESSED, 2⟩, 4, [pageP2, pageP1]⟩]⟩], false,
    fun b => .ok b⟩

/-- C3: for a chunk located in the requested row group whose page counts
satisfy the data-model invariant (they sum exactly to the chunk's
`numValues`, none empty) and whose pages all decode (UNCOMPRESSED,
PLAIN, top-level REQUIRED leaf), (a) the pages yielded for the chunk
have `numValues` summing exactly to the chunk's `numValues`, (b) the
column read returns the concatenation of the per-page value arrays in
page (file) order, and (c) reordering pages with different contents
changes the result, witnessed by the concrete two-page files. -/
theorem column_page_sum_and_concat
    (pf : ParquetFile) (rowgroupid : Nat) (schema : SchemaLeaf)
    (rowgroup : RowGroup) (chunk : ColumnChunk) (vs : List (List PValue))
    (hrg : pf.rowGroups.get? rowgroupid = some rowgroup)
    (hfind : rowgroup.columns.find?
        (fun c => decide (c.metaData.pathInSchema = schema.path)) = some chunk)
    (hreq : schema.required = true)
    (hlen1 : ¬ schema.path.length > 1)
    (hcodec : chunk.metaData.codec = Codec.UNCOMPRESSED)
    (henc : ∀ p ∈ chunk.pages, p.1.encoding = Encoding.PLAIN)
    (hpos : ∀ p ∈ chunk.pages, 0 < p.1.numValues)
    (hsum : (chunk.pages.map (fun p => p.1.numValues)).sum =
      chunk.metaData.numValues)
    (hne : chunk.pages ≠ [])
    (hdec : chunk.pages.mapM (fun p => ParquetFile.plain p.2 chunk.metaData.type)
      = .ok vs) :
    (∃ ys, pagereader chunk.metaData.numValues chunk.pages 0 = .ok ys ∧
      (ys.map (fun y => y.1.numValues)).sum = chunk.metaData.numValues) ∧
    pf.column rowgroupid schema true true true false =
      .ok [none, none, some (Seg.values vs.flatten)] ∧
    pfSwapA.column 0 schemaSwap true true true false ≠
      pfSwapB.column 0 schemaSwap true true true false := by
  obtain ⟨ys, hys, hproj, hsum'⟩ :=
    pagereader_exact chunk.metaData.numValues chunk.pages 0 (by simpa using hsum)
      hpos
  have hvs_ne : vs ≠ [] := by
    intro hnil
    subst hnil
    have := mapM_ok_length _ _ _ hdec
    cases hpages : chunk.pages with
    | nil => exact hne hpages
    | cons p rest => rw [hpages] at this; simp at this
  refine ⟨⟨ys, hys, by simpa using hsum'⟩, ?_, ?_⟩
  · have hsegs := mapM_processPage_plain schema chunk.metaData hreq hlen1 ys vs
      (by rw [hproj]; exact henc) (by rw [hproj]; exact hdec)
    unfold ParquetFile.column
    rw [if_neg (by simp)]
    rw [hrg]
    simp only
    rw [hfind]
    simp only
    rw [hcodec]
    simp only [getDecompress]
    rw [hys]
    simp only
    rw [hsegs]
    simp only [filterMap_segs_fst, filterMap_segs_snd, filterMap_segs_data,
      if_true]
    rw [buildOut_all_data vs hvs_ne]
  · have hA : pfSwapA.column 0 schemaSwap true true true false =
        .ok [none, none, some (Seg.values [.i32 5, .i32 7])] := rfl
    have hB : pfSwapB.column 0 schemaSwap true true true false =
        .ok [none, none, some (Seg.values [.i32 7, .i32 5])] := rfl
    rw [hA, hB]
    simp

theorem column_page_sum_and_concat_witness :
    (∃ ys, pagereader 2 [pageP1, pageP2] 0 = .ok ys ∧
      (ys.map (fun y => y.1.numValues)).sum = 2) ∧
    pfSwapA.column 0 schemaSwap true true true false =
      .ok [none, none, some (Seg.values ([[PValue.i32 5], [PValue.i32 7]] : List (List PValue)).flatten)] ∧
    pfSwapA.column 0 schemaSwap true true true false ≠
      pfSwapB.column 0 schemaSwap true true true false :=
  column_page_sum_and_concat pfSwapA 0 schemaSwap
    ⟨[⟨⟨["s"], .INT32, .UNCOMPRESSED, 2⟩, 4, [pageP1, pageP2]⟩]⟩
    ⟨⟨["s"], .INT32, .UNCOMPRESSED, 2⟩, 4, [pageP1, pageP2]⟩
    [[PValue.i32 5], [PValue.i32 7]]
    rfl rfl rfl (by decide) rfl (by decide) (by decide) rfl (by decide) rfl

/- Claim C9: the shape of the result tuple. -/

/-- C9 (counterexample): with the definition- and repetition-level
switches off, the result is a 1-tuple holding only the value array — the
disabled switches' slots are dropped, not filled with the absent
marker, so the result is not the claimed 3-tuple. -/
theorem column_switch_off_drops_slot :
    pfC1.column 0 schemaC1 false false true false =
      .ok [some (Seg.values [.i32 1, .i32 2, .i32 3])] ∧
    pfC1.column 0 schemaC1 false false true false ≠
      .ok [none, none, some (Seg.values [.i32 1, .i32 2, .i32 3])] := by
  have h : pfC1.column 0 schemaC1 false false true false =
      .ok [some (Seg.values [.i32 1, .i32 2, .i32 3])] := rfl
  refine ⟨h, ?_⟩
  rw [h]
  simp

/-- The tuple `buildOut` assembles has one slot per enabled switch. -/
theorem buildOut_length (d r dat : Bool) (a b : List (List Nat))
    (c : List (List PValue)) :
    (buildOut d r dat a b c).length =
      (if d then 1 else 0) + (if r then 1 else 0) + (if dat then 1 else 0) := by
  cases d <;> cases r <;> cases dat <;> simp [buildOut]

/-- Every page the loop processes successfully contributes no
definition- or repetition-level segment (the level-decoding branches
never complete). -/
theorem processPage_ok_levels_none
    (dec : List Nat → Nat → Nat → Except PyError (List Nat))
    (schema : SchemaLeaf) (meta : ColumnChunkMeta)
    (page : PageHeader × List Nat × Nat × Nat)
    (s : Option (List Nat) × Option (List Nat) × Option (List PValue))
    (h : processPage dec schema meta page = .ok s) :
    s.1 = none ∧ s.2.1 = none := by
  unfold processPage at h
  repeat' split at h
  all_goals
    first
      | (obtain rfl := Except.ok.inj h; exact ⟨rfl, rfl⟩)
      | exact Except.noConfusion h

/-- Every element of a successful `mapM` image comes from applying the
function to some element of the source list. -/
theorem mapM_ok_mem {α β : Type} (f : α → Except PyError β) :
    ∀ (l : List α) (bs : List β), l.mapM f = .ok bs →
      ∀ b ∈ bs, ∃ a ∈ l, f a = .ok b := by
  intro l
  induction l with
  | nil =>
    intro bs hm b hb
    simp only [List.mapM_nil, pure, Except.pure, Except.ok.injEq] at hm
    subst hm
    simp at hb
  | cons a l ih =>
    intro bs hm b hb
    simp only [List.mapM_cons] at hm
    cases hf : f a with
    | error e => rw [hf] at hm; simp [bind, Except.bind] at hm
    | ok b0 =>
      rw [hf] at hm
      simp only [bind, Except.bind] at hm
      cases hrest : l.mapM f with
      | error e => rw [hrest] at hm; simp at hm
      | ok bs' =>
        rw [hrest] at hm
        simp only [pure, Except.pure, Except.ok.injEq] at hm
        subst hm
        rcases List.mem_cons.mp hb with rfl | hmem
        · exact ⟨a, List.mem_cons_self _ _, hf⟩
        · obtain ⟨a', ha', hfa'⟩ := ih bs' hrest b hmem
          exact ⟨a', List.mem_cons_of_mem _ ha', hfa'⟩

/-- C9 (amended): a successful column read returns a tuple with one slot
per enabled switch, ordered (definition levels, repetition levels,
values) — a disabled switch's slot is omitted, not filled — it always
has the shape `buildOut` assembles, and when the definition-level switch
is enabled its slot holds the absent marker `none` (no level segment is
ever produced), letting callers distinguish absence from data. -/
theorem column_slots_per_enabled_switch
    (pf : ParquetFile) (rowgroupid : Nat) (schema : SchemaLeaf)
    (deflevels replevels data : Bool) (out : List (Option Seg))
    (h : pf.column rowgroupid schema deflevels replevels data false = .ok out) :
    (∃ ds rs vsegs, out = buildOut deflevels replevels data ds rs vsegs) ∧
    out.length = (if deflevels then 1 else 0) + (if replevels then 1 else 0) +
      (if data then 1 else 0) ∧
    (deflevels = true → out.head? = some none) := by
  unfold ParquetFile.column at h
  rw [if_neg (by simp)] at h
  split at h
  · exact Except.noConfusion h
  rename_i rowgroup hrg
  split at h
  · exact Except.noConfusion h
  rename_i footercolumn hfind
  split at h
  · exact Except.noConfusion h
  rename_i decompress hdec
  split at h
  · exact Except.noConfusion h
  rename_i pages hpr
  split at h
  · exact Except.noConfusion h
  rename_i segs hm
  obtain rfl := (Except.ok.inj h).symm
  have hnone : segs.filterMap (fun s => s.1) = [] := by
    rw [List.filterMap_eq_nil_iff]
    intro s hs
    obtain ⟨a, -, ha⟩ := mapM_ok_mem _ pages segs hm s hs
    exact (processPage_ok_levels_none decompress schema footercolumn.metaData
      a s ha).1
  refine ⟨⟨_, _, _, rfl⟩, buildOut_length _ _ _ _ _ _, ?_⟩
  intro hd
  subst hd
  simp [buildOut, hnone]

theorem column_slots_per_enabled_switch_witness :
    (∃ ds rs vsegs,
      [Option.none, Option.none,
        some (Seg.values [PValue.i32 1, PValue.i32 2, PValue.i32 3])] =
        buildOut true true true ds rs vsegs) ∧
    ([Option.none, Option.none,
        some (Seg.values [PValue.i32 1, PValue.i32 2, PValue.i32 3])] :
        List (Option Seg)).length = 3 ∧
    (true = true →
      ([Option.none, Option.none,
        some (Seg.values [PValue.i32 1, PValue.i32 2, PValue.i32 3])] :
        List (Option Seg)).head? = some none) :=
  column_slots_per_enabled_switch pfC1 0 schemaC1 true true true
    [Option.none, Option.none,
      some (Seg.values [PValue.i32 1, PValue.i32 2, PValue.i32 3])] rfl
